import Mathlib

/-!
Verification of the review-text analysis pipeline (text normalisation,
keyword extraction, co-occurrence network, topic modelling).

The development shallowly embeds the pure logic of
`src/utils/text_preprocessing.py`, `src/utils/network_analysis.py`,
`src/utils/topic_modeling.py` and the analysis driver in `src/app.py`.
Library routines that are not part of the repository (the Okt morphological
tokenizer, the networkx centrality algorithms, the sklearn vectorizer/LDA)
are taken as parameters of the embedded functions, so theorems quantify over
their behaviour; everything the repository itself computes is translated
directly.
-/

/-! ### Character classes used by `clean_text`

`clean_text` applies three regex substitutions.  We model the character
classes of Python's `re` module: `\w` (word character: letter, digit or
underscore — ASCII fragment, which covers every string appearing in the
claims), `\s` (whitespace) and `\d` (digit). -/

/-- Python regex `\w`: letters, digits and underscore. -/
def isWordChar (c : Char) : Bool := c.isAlphanum || c == '_'

/-- Python regex `\s`: whitespace characters. -/
def isSpaceChar (c : Char) : Bool :=
  c == ' ' || c == '\t' || c == '\n' || c == '\r'

/-- First substitution of `clean_text`: `re.sub(r'[^\w\s]', ' ', text)` —
every character that is neither a word character nor whitespace is replaced
by a single space (the character class matches one character at a time). -/
def subNonWord (l : List Char) : List Char :=
  l.map fun c => if isWordChar c || isSpaceChar c then c else ' '

/-- Second substitution of `clean_text`: `re.sub(r'\d+', '', text)` —
removing every maximal digit run is the same as removing every digit. -/
def subDigits (l : List Char) : List Char :=
  l.filter fun c => !c.isDigit

/-- Worker for the third substitution `re.sub(r'\s+', ' ', text)`: the flag
records whether the current position is inside a whitespace run whose single
replacement space has already been emitted. -/
def collapseAux : List Char → Bool → List Char
  | [], _ => []
  | c :: rest, prev =>
    if isSpaceChar c then
      if prev then collapseAux rest true else ' ' :: collapseAux rest true
    else c :: collapseAux rest false

/-- Third substitution of `clean_text`: collapse each whitespace run to one
space. -/
def collapseWS (l : List Char) : List Char := collapseAux l false

/-- Removes trailing whitespace (the right half of Python's `str.strip`). -/
def stripEnd (l : List Char) : List Char :=
  (l.reverse.dropWhile isSpaceChar).reverse

/-- Python `str.strip()`: drop leading and trailing whitespace. -/
def stripWS (l : List Char) : List Char :=
  stripEnd (l.dropWhile isSpaceChar)

/-- The character-list pipeline of `TextPreprocessor.clean_text`
(src/utils/text_preprocessing.py lines 11–21). -/
def cleanList (l : List Char) : List Char :=
  stripWS (collapseWS (subDigits (subNonWord l)))

/-- `TextPreprocessor.clean_text`.  `pd.isna` is false on every actual
string, so the NaN guard returning `""` is not reachable for string input,
and `str(text)` is the identity on strings. -/
def clean_text (s : String) : String := String.mk (cleanList s.data)

/-! ### Facts about the character classes -/

lemma isSpaceChar_space : isSpaceChar ' ' = true := by decide

lemma not_digit_space : (' ').isDigit = false := by decide

lemma not_wordChar_of_spaceChar {c : Char} (h : isSpaceChar c = true) :
    isWordChar c = false := by
  have h' : c = ' ' ∨ c = '\t' ∨ c = '\n' ∨ c = '\r' := by
    simp only [isSpaceChar, Bool.or_eq_true, beq_iff_eq] at h
    tauto
  rcases h' with h' | h' | h' | h' <;> subst h' <;> decide

lemma spaceChar_of_wordChar {c : Char} (h : isWordChar c = true) :
    isSpaceChar c = false := by
  by_contra hc
  have hs : isSpaceChar c = true := by
    cases hx : isSpaceChar c
    · exact absurd hx hc
    · rfl
  rw [not_wordChar_of_spaceChar hs] at h
  exact Bool.false_ne_true h

/-! ### Equation lemmas for `collapseAux` -/

lemma collapseAux_nil (b : Bool) : collapseAux [] b = [] := rfl

lemma collapseAux_cons_space_true {c : Char} (h : isSpaceChar c = true)
    (rest : List Char) : collapseAux (c :: rest) true = collapseAux rest true := by
  simp [collapseAux, h]

lemma collapseAux_cons_space_false {c : Char} (h : isSpaceChar c = true)
    (rest : List Char) :
    collapseAux (c :: rest) false = ' ' :: collapseAux rest true := by
  simp [collapseAux, h]

lemma collapseAux_cons_nonspace {c : Char} (h : isSpaceChar c = false)
    (rest : List Char) (b : Bool) :
    collapseAux (c :: rest) b = c :: collapseAux rest false := by
  simp [collapseAux, h]

/-! ### The normal form produced by `cleanList`

A cleaned string consists of non-digit word characters and single spaces,
with no leading or trailing space.  `noTwoSpaces` is the adjacency relation
ruling out two whitespace characters in a row. -/

def noTwoSpaces (a b : Char) : Prop :=
  ¬(isSpaceChar a = true ∧ isSpaceChar b = true)

def normalizedChars (l : List Char) : Prop :=
  (∀ c ∈ l, (isWordChar c = true ∧ c.isDigit = false) ∨ c = ' ') ∧
  List.Chain' noTwoSpaces l ∧
  (∀ c ∈ l.head?, isSpaceChar c = false) ∧
  (∀ c ∈ l.getLast?, isSpaceChar c = false)

/-! ### The output of the pipeline is normalized -/

lemma mem_subNonWord {l : List Char} {c : Char} (h : c ∈ subNonWord l) :
    isWordChar c = true ∨ isSpaceChar c = true := by
  rcases List.mem_map.mp h with ⟨a, -, ha⟩
  by_cases hw : (isWordChar a || isSpaceChar a) = true
  · rw [if_pos hw] at ha
    subst ha
    simpa using hw
  · rw [if_neg hw] at ha
    subst ha
    right
    exact isSpaceChar_space

lemma mem_subDigits {x : List Char} {c : Char} (h : c ∈ subDigits x) :
    c ∈ x ∧ c.isDigit = false := by
  have := List.mem_filter.mp h
  simpa using this

lemma mem_collapseAux {c : Char} :
    ∀ (x : List Char) (b : Bool), c ∈ collapseAux x b →
      c = ' ' ∨ (c ∈ x ∧ isSpaceChar c = false) := by
  intro x
  induction x with
  | nil =>
    intro b h
    simp [collapseAux_nil] at h
  | cons a rest ih =>
    intro b h
    by_cases hs : isSpaceChar a = true
    · cases b with
      | true =>
        rw [collapseAux_cons_space_true hs] at h
        rcases ih true h with h' | ⟨hm, hns⟩
        · exact Or.inl h'
        · exact Or.inr ⟨List.mem_cons_of_mem _ hm, hns⟩
      | false =>
        rw [collapseAux_cons_space_false hs] at h
        rcases List.mem_cons.mp h with h' | h'
        · exact Or.inl h'
        · rcases ih true h' with h'' | ⟨hm, hns⟩
          · exact Or.inl h''
          · exact Or.inr ⟨List.mem_cons_of_mem _ hm, hns⟩
    · have hs' : isSpaceChar a = false := by
        cases hx : isSpaceChar a
        · rfl
        · exact absurd hx hs
      rw [collapseAux_cons_nonspace hs'] at h
      rcases List.mem_cons.mp h with h' | h'
      · subst h'
        exact Or.inr ⟨List.mem_cons_self _ _, hs'⟩
      · rcases ih false h' with h'' | ⟨hm, hns⟩
        · exact Or.inl h''
        · exact Or.inr ⟨List.mem_cons_of_mem _ hm, hns⟩

lemma head_collapseAux_true :
    ∀ (x : List Char), ∀ c ∈ (collapseAux x true).head?, isSpaceChar c = false := by
  intro x
  induction x with
  | nil =>
    intro c hc
    simp [collapseAux_nil] at hc
  | cons a rest ih =>
    intro c hc
    by_cases hs : isSpaceChar a = true
    · rw [collapseAux_cons_space_true hs] at hc
      exact ih c hc
    · have hs' : isSpaceChar a = false := by
        cases hx : isSpaceChar a
        · rfl
        · exact absurd hx hs
      rw [collapseAux_cons_nonspace hs'] at hc
      simp only [List.head?_cons, Option.mem_def, Option.some.injEq] at hc
      subst hc
      exact hs'

lemma chain'_collapseAux :
    ∀ (x : List Char) (b : Bool), List.Chain' noTwoSpaces (collapseAux x b) := by
  intro x
  induction x with
  | nil =>
    intro b
    simp [collapseAux_nil]
  | cons a rest ih =>
    intro b
    by_cases hs : isSpaceChar a = true
    · cases b with
      | true =>
        rw [collapseAux_cons_space_true hs]
        exact ih true
      | false =>
        rw [collapseAux_cons_space_false hs]
        refine List.chain'_cons'.mpr ⟨?_, ih true⟩
        intro h hh
        intro hcon
        have := head_collapseAux_true rest h hh
        rw [this] at hcon
        exact Bool.false_ne_true hcon.2
    · have hs' : isSpaceChar a = false := by
        cases hx : isSpaceChar a
        · rfl
        · exact absurd hx hs
      rw [collapseAux_cons_nonspace hs']
      refine List.chain'_cons'.mpr ⟨?_, ih false⟩
      intro h hh
      intro hcon
      rw [hs'] at hcon
      exact Bool.false_ne_true hcon.1

/-! ### Facts about `dropWhile` and `stripEnd` -/

lemma chain'_dropWhile {R : Char → Char → Prop} (p : Char → Bool) :
    ∀ (l : List Char), List.Chain' R l → List.Chain' R (l.dropWhile p) := by
  intro l
  induction l with
  | nil => intro h; simp
  | cons a rest ih =>
    intro h
    by_cases hp : p a = true
    · rw [List.dropWhile_cons, if_pos hp]
      exact ih h.tail
    · rw [List.dropWhile_cons, if_neg (by simp [hp])]
      exact h

lemma head_dropWhile (p : Char → Bool) :
    ∀ (l : List Char), ∀ c ∈ (l.dropWhile p).head?, p c = false := by
  intro l
  induction l with
  | nil => intro c hc; simp at hc
  | cons a rest ih =>
    intro c hc
    by_cases hp : p a = true
    · rw [List.dropWhile_cons, if_pos hp] at hc
      exact ih c hc
    · rw [List.dropWhile_cons, if_neg (by simp [hp])] at hc
      simp only [List.head?_cons, Option.mem_def, Option.some.injEq] at hc
      subst hc
      cases hx : p a
      · rfl
      · exact absurd hx hp

lemma getLastQ_append_right (l₁ : List Char) :
    ∀ (l₂ : List Char), l₂ ≠ [] → (l₁ ++ l₂).getLast? = l₂.getLast? := by
  induction l₁ with
  | nil => intro l₂ _; rfl
  | cons a rest ih =>
    intro l₂ h2
    rw [List.cons_append]
    cases hx : rest ++ l₂ with
    | nil => exact absurd (List.append_eq_nil.mp hx).2 h2
    | cons c t =>
      rw [List.getLast?_cons_cons, ← hx]
      exact ih l₂ h2

lemma mem_stripEnd {z : List Char} {c : Char} (h : c ∈ stripEnd z) : c ∈ z := by
  unfold stripEnd at h
  have h1 : c ∈ z.reverse.dropWhile isSpaceChar := List.mem_reverse.mp h
  have h2 : c ∈ z.reverse := (List.dropWhile_sublist _).subset h1
  exact List.mem_reverse.mp h2

lemma chain'_stripEnd {z : List Char} (h : List.Chain' noTwoSpaces z) :
    List.Chain' noTwoSpaces (stripEnd z) := by
  unfold stripEnd
  have h1 : List.Chain' (flip noTwoSpaces) z.reverse := by
    rw [List.chain'_reverse]
    exact List.Chain'.imp (fun a b hab => hab) h
  have h2 : List.Chain' (flip noTwoSpaces) (z.reverse.dropWhile isSpaceChar) :=
    chain'_dropWhile _ _ h1
  rw [List.chain'_reverse]
  exact h2

lemma getLast_stripEnd (z : List Char) :
    ∀ c ∈ (stripEnd z).getLast?, isSpaceChar c = false := by
  intro c hc
  unfold stripEnd at hc
  rw [List.getLast?_reverse] at hc
  exact head_dropWhile isSpaceChar z.reverse c hc

lemma head_stripEnd (z : List Char) :
    ∀ c ∈ (stripEnd z).head?, z.head? = some c := by
  intro c hc
  unfold stripEnd at hc
  rw [List.head?_reverse] at hc
  have hne : z.reverse.dropWhile isSpaceChar ≠ [] := by
    intro hx
    rw [hx] at hc
    simp at hc
  have hsplit : z.reverse.takeWhile isSpaceChar ++ z.reverse.dropWhile isSpaceChar = z.reverse :=
    List.takeWhile_append_dropWhile isSpaceChar z.reverse
  have happ : (z.reverse.takeWhile isSpaceChar ++ z.reverse.dropWhile isSpaceChar).getLast? =
      (z.reverse.dropWhile isSpaceChar).getLast? :=
    getLastQ_append_right _ _ hne
  have h1 : z.reverse.getLast? = (z.reverse.dropWhile isSpaceChar).getLast? := by
    rw [← happ, hsplit]
  rw [List.getLast?_reverse] at h1
  rw [h1]
  exact hc

/-! ### `cleanList` output is normalized -/

lemma normalized_cleanList (l : List Char) : normalizedChars (cleanList l) := by
  unfold cleanList stripWS
  set y := collapseWS (subDigits (subNonWord l)) with hy
  refine ⟨?_, ?_, ?_, ?_⟩
  · intro c hc
    have h1 : c ∈ y.dropWhile isSpaceChar := mem_stripEnd hc
    have h2 : c ∈ y := (List.dropWhile_sublist _).subset h1
    rcases mem_collapseAux _ _ h2 with h' | ⟨hm, hns⟩
    · exact Or.inr h'
    · rcases mem_subDigits hm with ⟨hm2, hnd⟩
      rcases mem_subNonWord hm2 with hw | hs
      · exact Or.inl ⟨hw, hnd⟩
      · rw [hs] at hns
        exact absurd hns (by simp)
  · exact chain'_stripEnd (chain'_dropWhile _ _ (chain'_collapseAux _ _))
  · intro c hc
    have := head_stripEnd (y.dropWhile isSpaceChar) c hc
    exact head_dropWhile isSpaceChar y c this
  · exact getLast_stripEnd _

/-! ### Cleaning is the identity on normalized strings -/

lemma subNonWord_eq_self {l : List Char}
    (h : ∀ c ∈ l, isWordChar c = true ∨ isSpaceChar c = true) :
    subNonWord l = l := by
  unfold subNonWord
  have : ∀ c ∈ l, (if isWordChar c || isSpaceChar c then c else ' ') = id c := by
    intro c hc
    rcases h c hc with h' | h' <;> simp [h']
  rw [List.map_congr_left this, List.map_id]

lemma subDigits_eq_self {l : List Char} (h : ∀ c ∈ l, c.isDigit = false) :
    subDigits l = l := by
  unfold subDigits
  refine List.filter_eq_self.mpr ?_
  intro a ha
  simp [h a ha]

lemma collapseAux_eq_self :
    ∀ (l : List Char), List.Chain' noTwoSpaces l →
      (∀ c ∈ l, isSpaceChar c = true → c = ' ') →
      (collapseAux l false = l ∧
        ((∀ c ∈ l.head?, isSpaceChar c = false) → collapseAux l true = l)) := by
  intro l
  induction l with
  | nil => intro _ _; exact ⟨rfl, fun _ => rfl⟩
  | cons a rest ih =>
    intro hch hsp
    have hch' := List.chain'_cons'.mp hch
    have ihr := ih hch'.2 (fun c hc h => hsp c (List.mem_cons_of_mem _ hc) h)
    by_cases hs : isSpaceChar a = true
    · have ha : a = ' ' := hsp a (List.mem_cons_self _ _) hs
      have hhead : ∀ c ∈ rest.head?, isSpaceChar c = false := by
        intro c hc
        have := hch'.1 c hc
        unfold noTwoSpaces at this
        cases hx : isSpaceChar c
        · rfl
        · exact absurd ⟨hs, hx⟩ this
      have hrest : collapseAux rest true = rest := ihr.2 hhead
      constructor
      · rw [collapseAux_cons_space_false hs, hrest, ha]
      · intro hcon
        have := hcon a (by simp)
        rw [hs] at this
        exact absurd this (by simp)
    · have hs' : isSpaceChar a = false := by
        cases hx : isSpaceChar a
        · rfl
        · exact absurd hx hs
      constructor
      · rw [collapseAux_cons_nonspace hs', ihr.1]
      · intro _
        rw [collapseAux_cons_nonspace hs', ihr.1]

lemma dropWhile_eq_self_of_head {l : List Char} {p : Char → Bool}
    (h : ∀ c ∈ l.head?, p c = false) : l.dropWhile p = l := by
  cases l with
  | nil => rfl
  | cons a rest =>
    have ha : p a = false := h a (by simp)
    rw [List.dropWhile_cons, if_neg (by simp [ha])]

lemma stripEnd_eq_self {l : List Char}
    (h : ∀ c ∈ l.getLast?, isSpaceChar c = false) : stripEnd l = l := by
  unfold stripEnd
  have h' : ∀ c ∈ l.reverse.head?, isSpaceChar c = false := by
    intro c hc
    rw [List.head?_reverse] at hc
    exact h c hc
  rw [dropWhile_eq_self_of_head h', List.reverse_reverse]

lemma cleanList_eq_self {l : List Char} (h : normalizedChars l) : cleanList l = l := by
  obtain ⟨hmem, hch, hhead, hlast⟩ := h
  unfold cleanList stripWS
  have h1 : subNonWord l = l := by
    refine subNonWord_eq_self ?_
    intro c hc
    rcases hmem c hc with ⟨hw, -⟩ | h'
    · exact Or.inl hw
    · rw [h']
      exact Or.inr isSpaceChar_space
  have h2 : subDigits l = l := by
    refine subDigits_eq_self ?_
    intro c hc
    rcases hmem c hc with ⟨-, hd⟩ | h'
    · exact hd
    · rw [h']
      exact not_digit_space
  have h3 : collapseWS l = l := by
    unfold collapseWS
    refine (collapseAux_eq_self l hch ?_).1
    intro c hc hcs
    rcases hmem c hc with ⟨hw, -⟩ | h'
    · rw [spaceChar_of_wordChar hw] at hcs
      exact absurd hcs (by simp)
    · exact h'
  have h4 : l.dropWhile isSpaceChar = l := dropWhile_eq_self_of_head hhead
  rw [h1, h2, h3, h4, stripEnd_eq_self hlast]

/-- C8: `clean_text` is idempotent — cleaning an already-cleaned string
returns it unchanged, for every input string. -/
theorem clean_text_idempotent (s : String) :
    clean_text (clean_text s) = clean_text s := by
  unfold clean_text
  have : (String.mk (cleanList s.data)).data = cleanList s.data := rfl
  rw [this, cleanList_eq_self (normalized_cleanList s.data)]

/-! ### Keyword extraction (`TextPreprocessor.extract_keywords`)

The morphological analyzer `okt.morphs` is an external library routine, so
it appears as the `morphs` parameter; the claims that fix a concrete
tokenization instantiate it with the whitespace splitter below. -/

/-- Models Python `str.lower()` on the character list (ASCII case folding,
which covers the Latin strings of the claims; Korean has no case). -/
def lowerChars (s : String) : List Char := s.data.map Char.toLower

/-- Tests whether the first list is an initial segment of the second. -/
def leadsWith : List Char → List Char → Bool
  | [], _ => true
  | _ :: _, [] => false
  | a :: as, b :: bs => a == b && leadsWith as bs

/-- Python's substring test `needle in hay` for strings. -/
def hasSegment (needle : List Char) : List Char → Bool
  | [] => leadsWith needle []
  | b :: t => leadsWith needle (b :: t) || hasSegment needle t

/-- The builtin Korean stopword set of `extract_keywords`
(src/utils/text_preprocessing.py lines 32–33). -/
def builtinStopwords : List String :=
  ["이", "그", "저", "것", "수", "있", "하", "되", "같", "들",
   "많", "좋", "잘", "매우", "정말", "너무", "아주", "완전", "진짜", "한번", "조금"]

/-- The stopword set after `stopwords.update(exclude_words)`.  Python skips
the update when `exclude_words` is `None` or empty (falsy), which has the
same member set as appending the list unconditionally. -/
def stopList (exclude_words : Option (List String)) : List String :=
  builtinStopwords ++ exclude_words.getD []

/-- The comprehension of lines 39–40: keep tokens of length at least 2 that
are not stopwords. -/
def keywordFilter (morphs : String → List String) (text : String)
    (exclude_words : Option (List String)) : List String :=
  (morphs text).filter fun w => decide (2 ≤ w.length ∧ w ∉ stopList exclude_words)

/-- `TextPreprocessor.extract_keywords` (lines 23–48).  The inclusion gate
runs only when `include_words` is truthy — Python treats `None` and the
empty list alike as falsy, so both are modeled by `getD []` being empty.
A truthy gate tests the original text, lowercased, for each inclusion term
as a substring. -/
def extract_keywords (morphs : String → List String) (text : String)
    (exclude_words include_words : Option (List String)) : List String :=
  if text = "" then []
  else if include_words.getD [] = [] then keywordFilter morphs text exclude_words
  else if (include_words.getD []).any fun inc =>
      hasSegment (lowerChars inc) (lowerChars text) then
    keywordFilter morphs text exclude_words
  else []

/-- Whitespace tokenizer used to instantiate `morphs` in claims that assume
space-separated tokenization; the accumulator holds the current word
reversed. -/
def splitWSAux : List Char → List Char → List String
  | [], acc => if acc.isEmpty then [] else [String.mk acc.reverse]
  | c :: rest, acc =>
    if isSpaceChar c then
      if acc.isEmpty then splitWSAux rest []
      else String.mk acc.reverse :: splitWSAux rest []
    else splitWSAux rest (c :: acc)

/-- Splits a string into its whitespace-separated words. -/
def spaceSplit (s : String) : List String := splitWSAux s.data []

lemma mem_keywordFilter {morphs : String → List String} {text : String}
    {excl : Option (List String)} {w : String}
    (h : w ∈ keywordFilter morphs text excl) :
    w ∈ morphs text ∧ 2 ≤ w.length ∧ w ∉ stopList excl := by
  have := List.mem_filter.mp h
  refine ⟨this.1, ?_⟩
  have h2 := this.2
  simpa using h2

lemma mem_extract_keywords {morphs : String → List String} {text : String}
    {excl incl : Option (List String)} {w : String}
    (h : w ∈ extract_keywords morphs text excl incl) :
    w ∈ keywordFilter morphs text excl := by
  by_cases ht : text = ""
  · rw [extract_keywords, if_pos ht] at h
    simp at h
  · rw [extract_keywords, if_neg ht] at h
    by_cases h1 : incl.getD [] = []
    · rwa [if_pos h1] at h
    · rw [if_neg h1] at h
      by_cases h2 : ((incl.getD []).any fun inc =>
          hasSegment (lowerChars inc) (lowerChars text)) = true
      · rwa [if_pos h2] at h
      · rw [if_neg h2] at h
        simp at h

/-- C6: no token of the exclusion list survives `extract_keywords`, and the
exclusion list `["room"]` applied to the text tokenized as
`["room", "clean", "service"]` yields `["clean", "service"]`. -/
theorem exclude_words_filtered :
    (∀ (morphs : String → List String) (text : String) (E : List String)
        (incl : Option (List String)) (w : String),
        w ∈ extract_keywords morphs text (some E) incl → w ∉ E) ∧
    extract_keywords spaceSplit "room clean service" (some ["room"]) none
      = ["clean", "service"] := by
  constructor
  · intro morphs text E incl w h
    have hk := mem_keywordFilter (mem_extract_keywords h)
    intro hwE
    exact hk.2.2 (List.mem_append_right _ (by simpa using hwE))
  · decide

/-- Witness for C6 at a concrete input: the surviving token `"clean"` of
the tokenized text `"room clean service"` is not in the exclusion list. -/
theorem exclude_words_filtered_witness :
    ("clean" : String) ∉ (["room"] : List String) :=
  exclude_words_filtered.1 spaceSplit "room clean service" ["room"] none "clean" (by decide)

/-- C5: with a non-empty inclusion list, a non-empty keyword result implies
the text contains some inclusion term as a case-insensitive substring, and
if no inclusion term occurs the result is empty. -/
theorem include_words_gate (morphs : String → List String) (text : String)
    (E : Option (List String)) (I : List String) (hI : I ≠ []) :
    (extract_keywords morphs text E (some I) ≠ [] →
      ∃ inc ∈ I, hasSegment (lowerChars inc) (lowerChars text) = true) ∧
    ((∀ inc ∈ I, hasSegment (lowerChars inc) (lowerChars text) = false) →
      extract_keywords morphs text E (some I) = []) := by
  have hne : ¬ (some I).getD [] = [] := by
    simpa using hI
  by_cases ht : text = ""
  · constructor
    · intro hx
      rw [extract_keywords, if_pos ht] at hx
      exact absurd rfl hx
    · intro _
      rw [extract_keywords, if_pos ht]
  · by_cases h2 : (((some I).getD []).any fun inc =>
        hasSegment (lowerChars inc) (lowerChars text)) = true
    · constructor
      · intro _
        rcases List.any_eq_true.mp h2 with ⟨inc, hmem, hseg⟩
        exact ⟨inc, by simpa using hmem, hseg⟩
      · intro hall
        rcases List.any_eq_true.mp h2 with ⟨inc, hmem, hseg⟩
        rw [hall inc (by simpa using hmem)] at hseg
        exact absurd hseg (by simp)
    · constructor
      · intro hx
        rw [extract_keywords, if_neg ht, if_neg hne, if_neg h2] at hx
        exact absurd rfl hx
      · intro _
        rw [extract_keywords, if_neg ht, if_neg hne, if_neg h2]

/-- Witness for C5 at a concrete input: the text `"nice room"` contains no
member of the inclusion list `["service"]`, so the keyword list is empty. -/
theorem include_words_gate_witness :
    extract_keywords spaceSplit "nice room" none (some ["service"]) = [] :=
  (include_words_gate spaceSplit "nice room" none ["service"] (by decide)).2 (by decide)

/-! ### Co-occurrence matrix (`TextPreprocessor.get_cooccurrence_matrix`) -/

/-- Code-point lexicographic order on character lists; Python's `sorted`
compares strings exactly this way. -/
def charListLe : List Char → List Char → Bool
  | [], _ => true
  | _ :: _, [] => false
  | a :: as, b :: bs =>
    if a.toNat < b.toNat then true
    else if b.toNat < a.toNat then false
    else charListLe as bs

/-- Python `tuple(sorted([word1, word2]))`: the unordered pair key. -/
def pairKey (a b : String) : String × String :=
  if charListLe a.data b.data then (a, b) else (b, a)

lemma charListLe_refl : ∀ (l : List Char), charListLe l l = true := by
  intro l
  induction l with
  | nil => rfl
  | cons a as ih =>
    rw [charListLe]
    simp [ih]

lemma pairKey_self (w : String) : pairKey w w = (w, w) := by
  rw [pairKey, if_pos (charListLe_refl w.data)]

/-- One step of `cooccurrence[pair] = cooccurrence.get(pair, 0) + 1` on the
dict modeled as an association list with distinct keys in insertion
order. -/
def bumpPair : List ((String × String) × Nat) → (String × String) →
    List ((String × String) × Nat)
  | [], p => [(p, 1)]
  | (q, n) :: rest, p =>
    if q = p then (q, n + 1) :: rest else (q, n) :: bumpPair rest p

/-- Python `dict.get(pair, 0)`. -/
def lookupCount : List ((String × String) × Nat) → (String × String) → Nat
  | [], _ => 0
  | (q, n) :: rest, p => if q = p then n else lookupCount rest p

/-- The double loop of `get_cooccurrence_matrix` for one document's keyword
list: every position `i` is paired with every position `j` in
`range(max(0, i - window_size), min(len(keywords), i + window_size + 1))`
other than `i` itself.  Truncated subtraction `i - window_size` equals
`max(0, i - window_size)`. -/
def cooccurDoc (keywords : List String) (window_size : Nat)
    (m : List ((String × String) × Nat)) : List ((String × String) × Nat) :=
  (List.range keywords.length).foldl
    (fun m1 i =>
      ((List.range (min keywords.length (i + window_size + 1))).filter
          (fun j => i - window_size ≤ j)).foldl
        (fun m2 j =>
          if i ≠ j then bumpPair m2 (pairKey (keywords.getD i "") (keywords.getD j ""))
          else m2)
        m1)
    m

/-- `TextPreprocessor.get_cooccurrence_matrix` (lines 50–65): accumulate the
windowed pair counts of every document's extracted keywords. -/
def get_cooccurrence_matrix (morphs : String → List String) (texts : List String)
    (exclude_words include_words : Option (List String)) (window_size : Nat) :
    List ((String × String) × Nat) :=
  texts.foldl
    (fun m text =>
      cooccurDoc (extract_keywords morphs text exclude_words include_words) window_size m)
    []

/-! ### Network construction (`NetworkAnalyzer.create_network`) -/

/-- State of the `networkx.Graph` built by `create_network`: nodes and edges
in insertion order without duplicates; an undirected edge is stored under
its sorted key, so `(a, b)` and `(b, a)` coincide.  The `weight=freq` edge
attribute is not modeled — no claim mentions edge weights. -/
structure Graph where
  nodes : List String
  edges : List (String × String)
deriving DecidableEq

/-- Adds a node if it is not present (networkx keeps the first copy). -/
def Graph.addNode (g : Graph) (v : String) : Graph :=
  if v ∈ g.nodes then g else { g with nodes := g.nodes ++ [v] }

/-- Models `networkx.Graph.add_edge(a, b)`: add missing endpoints, then the
edge under its sorted key. -/
def Graph.addEdge (g : Graph) (a b : String) : Graph :=
  if pairKey a b ∈ ((g.addNode a).addNode b).edges then (g.addNode a).addNode b
  else { (g.addNode a).addNode b with
           edges := ((g.addNode a).addNode b).edges ++ [pairKey a b] }

/-- `NetworkAnalyzer.create_network` (src/utils/network_analysis.py lines
11–20): add an edge for every pair whose accumulated count reaches
`min_frequency`; nodes arise only as endpoints of added edges. -/
def create_network (cooccurrence_dict : List ((String × String) × Nat))
    (min_frequency : Nat) : Graph :=
  (cooccurrence_dict.filter fun pf => min_frequency ≤ pf.2).foldl
    (fun g pf => g.addEdge pf.1.1 pf.1.2) ⟨[], []⟩

lemma mem_addNode_nodes {g : Graph} {v x : String} :
    x ∈ (g.addNode v).nodes ↔ x ∈ g.nodes ∨ x = v := by
  rw [Graph.addNode]
  by_cases hv : v ∈ g.nodes
  · rw [if_pos hv]
    constructor
    · exact Or.inl
    · intro h
      rcases h with h | h
      · exact h
      · rw [h]
        exact hv
  · rw [if_neg hv]
    simp

lemma addNode_edges (g : Graph) (v : String) : (g.addNode v).edges = g.edges := by
  rw [Graph.addNode]
  by_cases hv : v ∈ g.nodes
  · rw [if_pos hv]
  · rw [if_neg hv]

lemma mem_addEdge_nodes {g : Graph} {a b x : String} :
    x ∈ (g.addEdge a b).nodes ↔ x ∈ g.nodes ∨ x = a ∨ x = b := by
  rw [Graph.addEdge]
  by_cases he : pairKey a b ∈ ((g.addNode a).addNode b).edges
  · rw [if_pos he, mem_addNode_nodes, mem_addNode_nodes]
    tauto
  · rw [if_neg he]
    show x ∈ ((g.addNode a).addNode b).nodes ↔ _
    rw [mem_addNode_nodes, mem_addNode_nodes]
    tauto

lemma mem_addEdge_edges {g : Graph} {a b : String} {e : String × String} :
    e ∈ (g.addEdge a b).edges ↔ e ∈ g.edges ∨ e = pairKey a b := by
  rw [Graph.addEdge]
  by_cases he : pairKey a b ∈ ((g.addNode a).addNode b).edges
  · rw [if_pos he, addNode_edges, addNode_edges]
    rw [addNode_edges, addNode_edges] at he
    constructor
    · exact Or.inl
    · intro h
      rcases h with h | h
      · exact h
      · rw [h]
        exact he
  · rw [if_neg he]
    show e ∈ ((g.addNode a).addNode b).edges ++ [pairKey a b] ↔ _
    rw [List.mem_append, addNode_edges, addNode_edges]
    simp

lemma nodup_addNode_nodes {g : Graph} (h : g.nodes.Nodup) (v : String) :
    (g.addNode v).nodes.Nodup := by
  rw [Graph.addNode]
  by_cases hv : v ∈ g.nodes
  · rw [if_pos hv]
    exact h
  · rw [if_neg hv]
    show (g.nodes ++ [v]).Nodup
    rw [List.nodup_append]
    refine ⟨h, List.nodup_singleton v, ?_⟩
    intro x hx hxv
    rw [List.mem_singleton] at hxv
    rw [hxv] at hx
    exact hv hx

lemma nodup_addEdge_nodes {g : Graph} (h : g.nodes.Nodup) (a b : String) :
    (g.addEdge a b).nodes.Nodup := by
  rw [Graph.addEdge]
  by_cases he : pairKey a b ∈ ((g.addNode a).addNode b).edges
  · rw [if_pos he]
    exact nodup_addNode_nodes (nodup_addNode_nodes h a) b
  · rw [if_neg he]
    exact nodup_addNode_nodes (nodup_addNode_nodes h a) b

lemma nodup_addEdge_edges {g : Graph} (h : g.edges.Nodup) (a b : String) :
    (g.addEdge a b).edges.Nodup := by
  rw [Graph.addEdge]
  by_cases he : pairKey a b ∈ ((g.addNode a).addNode b).edges
  · rw [if_pos he, addNode_edges, addNode_edges]
    exact h
  · rw [if_neg he]
    show (((g.addNode a).addNode b).edges ++ [pairKey a b]).Nodup
    rw [addNode_edges, addNode_edges] at he ⊢
    rw [List.nodup_append]
    refine ⟨h, List.nodup_singleton _, ?_⟩
    intro x hx hxv
    rw [List.mem_singleton] at hxv
    rw [hxv] at hx
    exact he hx

/-! ### What `create_network` builds -/

lemma foldl_addEdge_nodes :
    ∀ (l : List ((String × String) × Nat)) (g : Graph) (x : String),
      x ∈ (l.foldl (fun g1 pf => g1.addEdge pf.1.1 pf.1.2) g).nodes ↔
        x ∈ g.nodes ∨ ∃ pf ∈ l, x = pf.1.1 ∨ x = pf.1.2 := by
  intro l
  induction l with
  | nil =>
    intro g x
    simp
  | cons p t ih =>
    intro g x
    rw [List.foldl_cons, ih, mem_addEdge_nodes]
    constructor
    · intro h
      rcases h with (h | h | h) | ⟨pf, hpf, hx⟩
      · exact Or.inl h
      · exact Or.inr ⟨p, List.mem_cons_self _ _, Or.inl h⟩
      · exact Or.inr ⟨p, List.mem_cons_self _ _, Or.inr h⟩
      · exact Or.inr ⟨pf, List.mem_cons_of_mem _ hpf, hx⟩
    · intro h
      rcases h with h | ⟨pf, hpf, hx⟩
      · exact Or.inl (Or.inl h)
      · rcases List.mem_cons.mp hpf with h' | h'
        · subst h'
          exact Or.inl (Or.inr hx)
        · exact Or.inr ⟨pf, h', hx⟩

lemma foldl_addEdge_edges :
    ∀ (l : List ((String × String) × Nat)) (g : Graph) (e : String × String),
      e ∈ (l.foldl (fun g1 pf => g1.addEdge pf.1.1 pf.1.2) g).edges ↔
        e ∈ g.edges ∨ ∃ pf ∈ l, e = pairKey pf.1.1 pf.1.2 := by
  intro l
  induction l with
  | nil =>
    intro g e
    simp
  | cons p t ih =>
    intro g e
    rw [List.foldl_cons, ih, mem_addEdge_edges]
    constructor
    · intro h
      rcases h with (h | h) | ⟨pf, hpf, hx⟩
      · exact Or.inl h
      · exact Or.inr ⟨p, List.mem_cons_self _ _, h⟩
      · exact Or.inr ⟨pf, List.mem_cons_of_mem _ hpf, hx⟩
    · intro h
      rcases h with h | ⟨pf, hpf, hx⟩
      · exact Or.inl (Or.inl h)
      · rcases List.mem_cons.mp hpf with h' | h'
        · subst h'
          exact Or.inl (Or.inr hx)
        · exact Or.inr ⟨pf, h', hx⟩

lemma nodup_foldl_nodes :
    ∀ (l : List ((String × String) × Nat)) (g : Graph), g.nodes.Nodup →
      (l.foldl (fun g1 pf => g1.addEdge pf.1.1 pf.1.2) g).nodes.Nodup := by
  intro l
  induction l with
  | nil => intro g h; exact h
  | cons p t ih =>
    intro g h
    rw [List.foldl_cons]
    exact ih _ (nodup_addEdge_nodes h _ _)

lemma nodup_foldl_edges :
    ∀ (l : List ((String × String) × Nat)) (g : Graph), g.edges.Nodup →
      (l.foldl (fun g1 pf => g1.addEdge pf.1.1 pf.1.2) g).edges.Nodup := by
  intro l
  induction l with
  | nil => intro g h; exact h
  | cons p t ih =>
    intro g h
    rw [List.foldl_cons]
    exact ih _ (nodup_addEdge_edges h _ _)

lemma mem_create_network_nodes {cooc : List ((String × String) × Nat)}
    {minf : Nat} {x : String} :
    x ∈ (create_network cooc minf).nodes ↔
      ∃ pf ∈ cooc.filter (fun pf => minf ≤ pf.2), x = pf.1.1 ∨ x = pf.1.2 := by
  rw [create_network, foldl_addEdge_nodes]
  simp

lemma mem_create_network_edges {cooc : List ((String × String) × Nat)}
    {minf : Nat} {e : String × String} :
    e ∈ (create_network cooc minf).edges ↔
      ∃ pf ∈ cooc.filter (fun pf => minf ≤ pf.2), e = pairKey pf.1.1 pf.1.2 := by
  rw [create_network, foldl_addEdge_edges]
  simp

lemma nodup_create_network_nodes (cooc : List ((String × String) × Nat))
    (minf : Nat) : (create_network cooc minf).nodes.Nodup :=
  nodup_foldl_nodes _ _ List.nodup_nil

lemma nodup_create_network_edges (cooc : List ((String × String) × Nat))
    (minf : Nat) : (create_network cooc minf).edges.Nodup :=
  nodup_foldl_edges _ _ List.nodup_nil

lemma length_le_of_nodup_subset {α : Type} [DecidableEq α] {l₁ l₂ : List α}
    (h1 : l₁.Nodup) (h2 : l₂.Nodup) (hs : l₁ ⊆ l₂) : l₁.length ≤ l₂.length := by
  rw [← List.toFinset_card_of_nodup h1, ← List.toFinset_card_of_nodup h2]
  refine Finset.card_le_card ?_
  intro x hx
  rw [List.mem_toFinset] at hx ⊢
  exact hs hx

/-- C7: raising the minimum-frequency threshold never increases the node
count or the edge count of the graph built by `create_network`. -/
theorem create_network_threshold_monotonic
    (cooc : List ((String × String) × Nat)) (t1 t2 : Nat) (h : t1 ≤ t2) :
    (create_network cooc t2).nodes.length ≤ (create_network cooc t1).nodes.length ∧
    (create_network cooc t2).edges.length ≤ (create_network cooc t1).edges.length := by
  have hfilter : ∀ pf ∈ cooc.filter (fun pf => t2 ≤ pf.2),
      pf ∈ cooc.filter (fun pf => t1 ≤ pf.2) := by
    intro pf hpf
    have := List.mem_filter.mp hpf
    refine List.mem_filter.mpr ⟨this.1, ?_⟩
    have h2 : t2 ≤ pf.2 := by simpa using this.2
    simpa using le_trans h h2
  constructor
  · refine length_le_of_nodup_subset (nodup_create_network_nodes cooc t2)
      (nodup_create_network_nodes cooc t1) ?_
    intro x hx
    rcases mem_create_network_nodes.mp hx with ⟨pf, hpf, hend⟩
    exact mem_create_network_nodes.mpr ⟨pf, hfilter pf hpf, hend⟩
  · refine length_le_of_nodup_subset (nodup_create_network_edges cooc t2)
      (nodup_create_network_edges cooc t1) ?_
    intro e he
    rcases mem_create_network_edges.mp he with ⟨pf, hpf, hkey⟩
    exact mem_create_network_edges.mpr ⟨pf, hfilter pf hpf, hkey⟩

/-- Witness for C7 at a concrete input: thresholds 1 ≤ 3 on a one-pair
dictionary. -/
theorem create_network_threshold_monotonic_witness :
    (create_network [(("aa", "bb"), 2)] 3).nodes.length ≤
      (create_network [(("aa", "bb"), 2)] 1).nodes.length ∧
    (create_network [(("aa", "bb"), 2)] 3).edges.length ≤
      (create_network [(("aa", "bb"), 2)] 1).edges.length :=
  create_network_threshold_monotonic [(("aa", "bb"), 2)] 1 3 (by decide)

/-- C10: pair counting excludes only equal positions, not equal tokens — in
the keyword sequence `["aa", "bb", "aa"]` (from the text `"aa bb aa"`,
window 5) the pair `("aa", "aa")` receives count 2, and whenever a
co-occurrence map holds a pair `(w, w)` with a count reaching the
threshold, `create_network` adds a self-loop edge at node `w`. -/
theorem self_loop_pairs :
    lookupCount (get_cooccurrence_matrix spaceSplit ["aa bb aa"] none none 5)
      ("aa", "aa") = 2 ∧
    (∀ (cooc : List ((String × String) × Nat)) (minf : Nat) (w : String) (c : Nat),
      ((w, w), c) ∈ cooc → minf ≤ c →
        (w, w) ∈ (create_network cooc minf).edges ∧
        w ∈ (create_network cooc minf).nodes) := by
  constructor
  · decide
  · intro cooc minf w c hmem hle
    have hpf : ((w, w), c) ∈ cooc.filter (fun pf => minf ≤ pf.2) :=
      List.mem_filter.mpr ⟨hmem, by simpa using hle⟩
    constructor
    · exact mem_create_network_edges.mpr ⟨((w, w), c), hpf, (pairKey_self w).symm⟩
    · exact mem_create_network_nodes.mpr ⟨((w, w), c), hpf, Or.inl rfl⟩

/-- Witness for C10 at a concrete input: the self-loop pair of the example
text produces a self-loop edge at threshold 2. -/
theorem self_loop_pairs_witness :
    ("aa", "aa") ∈ (create_network [(("aa", "aa"), 2)] 2).edges ∧
    "aa" ∈ (create_network [(("aa", "aa"), 2)] 2).nodes :=
  self_loop_pairs.2 [(("aa", "aa"), 2)] 2 "aa" 2 (by decide) (by decide)

/-! ### The worked example sentence (claim C1) -/

/-- The example texts of the specification, with the tokenization the claim
assumes (space-separated words). -/
def exampleTexts : List String :=
  ["service great clean", "service great clean", "service clean",
   "room small clean", "view nice bed comfortable"]

/-- Co-occurrence map of the example texts at window 5 with no filters. -/
def exampleCooc : List ((String × String) × Nat) :=
  get_cooccurrence_matrix spaceSplit exampleTexts none none 5

/-- C1 as stated is false: the double loop of `get_cooccurrence_matrix`
counts each unordered pair once per ordered position pair, so the counts
are 6 and 2 — not 3 and 1 — and at threshold 2 the pair ("bed", "view")
does receive an edge. -/
theorem cooccurrence_example_counterexample :
    ¬ (lookupCount exampleCooc ("clean", "service") = 3 ∧
       lookupCount exampleCooc ("bed", "view") = 1 ∧
       ("clean", "service") ∈ (create_network exampleCooc 2).edges ∧
       ("bed", "view") ∉ (create_network exampleCooc 2).edges) := by
  intro h
  have h1 : lookupCount exampleCooc ("clean", "service") = 6 := by decide
  rw [h1] at h
  exact absurd h.1 (by decide)

set_option maxRecDepth 4000 in
/-- C1 amended: on the example texts the pair ("clean", "service") gets
count 6 and ("bed", "view") gets count 2 (each co-occurrence is counted in
both position orders), so at threshold 2 both pairs appear as edges. -/
theorem cooccurrence_example_amended :
    lookupCount exampleCooc ("clean", "service") = 6 ∧
    lookupCount exampleCooc ("bed", "view") = 2 ∧
    ("clean", "service") ∈ (create_network exampleCooc 2).edges ∧
    ("bed", "view") ∈ (create_network exampleCooc 2).edges := by
  refine ⟨by decide, by decide, ?_, ?_⟩
  · decide
  · decide

/-! ### Centrality metrics (`NetworkAnalyzer.calculate_centrality_metrics`)

`degree_centrality` is modeled from the networkx source (degree divided by
n − 1, self-loops counting twice, score 1 on graphs with at most one node);
the heavier library algorithms — betweenness, closeness and eigenvector
centrality — are parameters, with eigenvector failure modeled by `none`
(the `except` branch substitutes 0 for every node). -/

/-- Banker's rounding to the nearest integer, as numpy/pandas `round` do:
ties go to the even integer. -/
def bround (x : ℚ) : ℤ :=
  if x - ⌊x⌋ < 1 / 2 then ⌊x⌋
  else if 1 / 2 < x - ⌊x⌋ then ⌊x⌋ + 1
  else if 2 ∣ ⌊x⌋ then ⌊x⌋ else ⌊x⌋ + 1

/-- pandas `DataFrame.round(4)` applied to one value. -/
def round4 (x : ℚ) : ℚ := (bround (x * 10000) : ℚ) / 10000

/-- networkx node degree: the number of adjacent nodes, a self-loop
counting twice. -/
def Graph.degree (g : Graph) (v : String) : Nat :=
  (g.nodes.filter fun u => decide (pairKey v u ∈ g.edges)).length +
    (if (v, v) ∈ g.edges then 1 else 0)

/-- networkx `degree_centrality`: degree divided by (n − 1); a graph with
at most one node gets score 1. -/
def degree_centrality (g : Graph) (v : String) : ℚ :=
  if g.nodes.length ≤ 1 then 1
  else (g.degree v : ℚ) / ((g.nodes.length : ℚ) - 1)

/-- One row of the centrality DataFrame of
`calculate_centrality_metrics`. -/
structure CentralityRow where
  keyword : String
  degree_centrality : ℚ
  betweenness_centrality : ℚ
  closeness_centrality : ℚ
  eigenvector_centrality : ℚ
deriving DecidableEq

instance degreeDescDecidable :
    DecidableRel fun r s : CentralityRow =>
      s.degree_centrality ≤ r.degree_centrality :=
  fun r s => inferInstanceAs (Decidable (s.degree_centrality ≤ r.degree_centrality))

/-- `NetworkAnalyzer.calculate_centrality_metrics` (lines 22–46): empty
graph gives an empty table; otherwise one row per node with the four
rounded scores, sorted by degree centrality descending.  Eigenvector
failure (`none`) substitutes 0 for every node. -/
def calculate_centrality_metrics (g : Graph)
    (betweenness closeness : Graph → String → ℚ)
    (eigenvector : Graph → Option (String → ℚ)) : List CentralityRow :=
  if g.nodes.isEmpty then []
  else
    List.insertionSort (fun r s => s.degree_centrality ≤ r.degree_centrality)
      (g.nodes.map fun v =>
        ⟨v, round4 (degree_centrality g v), round4 (betweenness g v),
         round4 (closeness g v),
         round4 ((match eigenvector g with
                  | some f => f
                  | none => fun _ => 0) v)⟩)

/-! ### Rounding preserves the unit interval -/

lemma bround_intCast (n : ℤ) : bround ((n : ℚ)) = n := by
  unfold bround
  rw [Int.floor_intCast]
  have h0 : (n : ℚ) - n = 0 := sub_self _
  rw [h0, if_pos (by norm_num)]

lemma round4_zero : round4 0 = 0 := by
  unfold round4
  have h : (0 : ℚ) * 10000 = ((0 : ℤ) : ℚ) := by norm_num
  rw [h, bround_intCast]
  norm_num

lemma bround_nonneg {x : ℚ} (h : 0 ≤ x) : 0 ≤ bround x := by
  unfold bround
  have hf : (0 : ℤ) ≤ ⌊x⌋ := Int.floor_nonneg.mpr h
  split_ifs <;> omega

lemma bround_le_int {x : ℚ} {n : ℤ} (h : x ≤ n) : bround x ≤ n := by
  have hf : ⌊x⌋ ≤ n := by
    have h1 := Int.floor_le_floor h
    rwa [Int.floor_intCast] at h1
  unfold bround
  by_cases h1 : x - ⌊x⌋ < 1 / 2
  · rw [if_pos h1]
    exact hf
  · rw [if_neg h1]
    rcases lt_or_eq_of_le hf with hlt | heq
    · split_ifs <;> omega
    · exfalso
      have hc : (⌊x⌋ : ℚ) = (n : ℚ) := by exact_mod_cast heq
      have h2 : x - (⌊x⌋ : ℚ) ≤ 0 := by
        rw [hc]
        exact sub_nonpos.mpr h
      exact h1 (lt_of_le_of_lt h2 (by norm_num))

lemma round4_nonneg {x : ℚ} (h : 0 ≤ x) : 0 ≤ round4 x := by
  unfold round4
  have h1 : (0 : ℤ) ≤ bround (x * 10000) := bround_nonneg (by positivity)
  have h2 : (0 : ℚ) ≤ (bround (x * 10000) : ℚ) := by exact_mod_cast h1
  positivity

lemma round4_le_one {x : ℚ} (h : x ≤ 1) : round4 x ≤ 1 := by
  unfold round4
  have h1 : x * 10000 ≤ ((10000 : ℤ) : ℚ) := by
    push_cast
    nlinarith
  have h2 : bround (x * 10000) ≤ 10000 := bround_le_int h1
  rw [div_le_one (by norm_num)]
  exact_mod_cast h2

lemma round4_mem_unit {x : ℚ} (h0 : 0 ≤ x) (h1 : x ≤ 1) :
    0 ≤ round4 x ∧ round4 x ≤ 1 :=
  ⟨round4_nonneg h0, round4_le_one h1⟩

lemma round4_int (n : ℤ) : round4 ((n : ℚ)) = n := by
  unfold round4
  have h : (n : ℚ) * 10000 = ((n * 10000 : ℤ) : ℚ) := by
    push_cast
    ring
  rw [h, bround_intCast]
  push_cast
  rw [mul_div_assoc]
  norm_num

/-! ### Degree centrality lies in the unit interval on loop-free graphs -/

lemma filter_ne_length {v : String} (p : String → Bool)
    (hp : ∀ u, p u = true → u ≠ v) :
    ∀ (l : List String), l.Nodup → v ∈ l → (l.filter p).length ≤ l.length - 1 := by
  intro l
  induction l with
  | nil => intro _ hv; simp at hv
  | cons a t ih =>
    intro hnodup hv
    by_cases hav : a = v
    · have hpa : p a = false := by
        cases hx : p a
        · rfl
        · exact absurd hav (hp a hx)
      rw [List.filter_cons_of_neg (by simp [hpa])]
      have := List.length_filter_le p t
      simpa using this
    · have hvt : v ∈ t := by
        rcases List.mem_cons.mp hv with h' | h'
        · exact absurd h'.symm hav
        · exact h'
      have ht1 : 1 ≤ t.length := List.length_pos.mpr (List.ne_nil_of_mem hvt)
      have iht := ih (List.Nodup.of_cons hnodup) hvt
      by_cases hpa : p a = true
      · rw [List.filter_cons_of_pos hpa]
        simp only [List.length_cons]
        omega
      · rw [List.filter_cons_of_neg (by simp [Bool.not_eq_true] at hpa ⊢; exact hpa)]
        simp only [List.length_cons]
        omega

lemma degree_le_of_no_self_loop {g : Graph} (hnodup : g.nodes.Nodup)
    (hs : ∀ w, (w, w) ∉ g.edges) {v : String} (hv : v ∈ g.nodes) :
    g.degree v ≤ g.nodes.length - 1 := by
  rw [Graph.degree, if_neg (hs v)]
  have hp : ∀ u, (decide (pairKey v u ∈ g.edges)) = true → u ≠ v := by
    intro u hu hc
    subst hc
    rw [decide_eq_true_eq, pairKey_self] at hu
    exact hs u hu
  have := filter_ne_length _ hp g.nodes hnodup hv
  simpa using this

lemma degree_centrality_unit {g : Graph} (hnodup : g.nodes.Nodup)
    (hs : ∀ w, (w, w) ∉ g.edges) {v : String} (hv : v ∈ g.nodes) :
    0 ≤ degree_centrality g v ∧ degree_centrality g v ≤ 1 := by
  rw [degree_centrality]
  by_cases hn : g.nodes.length ≤ 1
  · rw [if_pos hn]
    norm_num
  · rw [if_neg hn]
    push_neg at hn
    have h2 : (2 : ℚ) ≤ (g.nodes.length : ℚ) := by exact_mod_cast hn
    have hpos : (0 : ℚ) < (g.nodes.length : ℚ) - 1 := by linarith
    constructor
    · exact div_nonneg (by positivity) (le_of_lt hpos)
    · rw [div_le_one hpos]
      have hd := degree_le_of_no_self_loop hnodup hs hv
      have hcast : ((g.degree v : ℚ)) ≤ (((g.nodes.length - 1 : ℕ)) : ℚ) := by
        exact_mod_cast hd
      have hsub : (((g.nodes.length - 1 : ℕ)) : ℚ) = (g.nodes.length : ℚ) - 1 := by
        rw [Nat.cast_sub (by omega)]
        norm_num
      rw [hsub] at hcast
      exact hcast

/-- C3: on eigenvector-centrality failure every node's eigenvector score in
the table is 0, and a graph with no nodes yields an empty table instead of
an error. -/
theorem centrality_degraded_defaults (g : Graph)
    (bet clo : Graph → String → ℚ) (eig : Graph → Option (String → ℚ)) :
    (eig g = none → ∀ r ∈ calculate_centrality_metrics g bet clo eig,
        r.eigenvector_centrality = 0) ∧
    (g.nodes = [] → calculate_centrality_metrics g bet clo eig = []) := by
  constructor
  · intro he r hr
    by_cases hn : g.nodes.isEmpty
    · rw [calculate_centrality_metrics, if_pos hn] at hr
      simp at hr
    · rw [calculate_centrality_metrics, if_neg hn] at hr
      rw [List.mem_insertionSort] at hr
      rcases List.mem_map.mp hr with ⟨v, hv, hrow⟩
      have hfield : r.eigenvector_centrality =
          round4 ((match eig g with
                   | some f => f
                   | none => fun _ => 0) v) := by
        rw [← hrow]
      rw [hfield, he]
      exact round4_zero
  · intro hn
    rw [calculate_centrality_metrics, if_pos (by simp [hn])]

/-- Witness for C3 at concrete inputs: a two-node graph with failing
eigenvector computation gets all-zero eigenvector scores, and the empty
graph gets an empty table. -/
theorem centrality_degraded_defaults_witness :
    (∀ r ∈ calculate_centrality_metrics (create_network [(("aa", "bb"), 3)] 2)
        (fun _ _ => 0) (fun _ _ => 0) (fun _ => none),
        r.eigenvector_centrality = 0) ∧
    calculate_centrality_metrics (create_network ([] : List ((String × String) × Nat)) 2)
        (fun _ _ => 0) (fun _ _ => 0) (fun _ => none) = [] :=
  ⟨(centrality_degraded_defaults _ _ _ _).1 rfl,
   (centrality_degraded_defaults _ _ _ _).2 rfl⟩

/-- A graph containing a self-loop, reachable through `create_network` from
a co-occurrence map with a `(w, w)` pair (compare claim C10). -/
def loopGraph : Graph := create_network [(("aa", "aa"), 2), (("aa", "bb"), 2)] 2

/-- C4 as stated is false: in `loopGraph` the self-loop makes the networkx
degree of node `"aa"` equal 3 while n − 1 = 1, so its degree-centrality
table entry is 3, outside the interval [0,1]. -/
theorem centrality_range_counterexample :
    ∃ r ∈ calculate_centrality_metrics loopGraph (fun _ _ => 0) (fun _ _ => 1)
        (fun _ => none), 1 < r.degree_centrality := by
  refine ⟨⟨"aa", round4 (degree_centrality loopGraph "aa"), round4 0, round4 1,
      round4 0⟩, ?_, ?_⟩
  · rw [calculate_centrality_metrics, if_neg (by decide)]
    rw [List.mem_insertionSort]
    exact List.mem_map.mpr ⟨"aa", by decide, rfl⟩
  · show 1 < round4 (degree_centrality loopGraph "aa")
    have hd : degree_centrality loopGraph "aa" = 3 := by
      rw [degree_centrality, if_neg (by decide)]
      have h1 : loopGraph.degree "aa" = 3 := by decide
      have h2 : loopGraph.nodes.length = 2 := by decide
      rw [h1, h2]
      norm_num
    have h3 : ((3 : ℚ)) = ((3 : ℤ) : ℚ) := by norm_num
    rw [hd, h3, round4_int]
    norm_num

/-- C4 amended: for every graph — self-loops included — the table has
exactly one row per node (the keyword column is a permutation of the node
list); and provided the graph has no self-loop and the betweenness,
closeness and (on convergence) eigenvector library scores are normalized
to [0,1], every rounded score of every row lies in [0,1], with the
eigenvector scores defaulting to 0 (also in [0,1]) on non-convergence.
With a self-loop the degree score can exceed 1 (see the
counterexample). -/
theorem centrality_table_amended (g : Graph)
    (bet clo : Graph → String → ℚ) (eig : Graph → Option (String → ℚ)) :
    List.Perm ((calculate_centrality_metrics g bet clo eig).map
        CentralityRow.keyword) g.nodes ∧
    (g.nodes.Nodup →
      (∀ v, 0 ≤ bet g v ∧ bet g v ≤ 1) →
      (∀ v, 0 ≤ clo g v ∧ clo g v ≤ 1) →
      (∀ f, eig g = some f → ∀ v, 0 ≤ f v ∧ f v ≤ 1) →
      (∀ w, (w, w) ∉ g.edges) →
      ∀ r ∈ calculate_centrality_metrics g bet clo eig,
        (0 ≤ r.degree_centrality ∧ r.degree_centrality ≤ 1) ∧
        (0 ≤ r.betweenness_centrality ∧ r.betweenness_centrality ≤ 1) ∧
        (0 ≤ r.closeness_centrality ∧ r.closeness_centrality ≤ 1) ∧
        (0 ≤ r.eigenvector_centrality ∧ r.eigenvector_centrality ≤ 1)) := by
  constructor
  · by_cases hn : g.nodes.isEmpty
    · rw [calculate_centrality_metrics, if_pos hn]
      rw [List.isEmpty_iff.mp hn]
      exact List.Perm.refl _
    · rw [calculate_centrality_metrics, if_neg hn]
      have hperm := List.perm_insertionSort
        (fun r s : CentralityRow => s.degree_centrality ≤ r.degree_centrality)
        (g.nodes.map fun v =>
          (⟨v, round4 (degree_centrality g v), round4 (bet g v),
            round4 (clo g v),
            round4 ((match eig g with
                     | some f => f
                     | none => fun _ => 0) v)⟩ : CentralityRow))
      have hmap := hperm.map CentralityRow.keyword
      rw [List.map_map] at hmap
      have hid : (CentralityRow.keyword ∘ fun v =>
          (⟨v, round4 (degree_centrality g v), round4 (bet g v),
            round4 (clo g v),
            round4 ((match eig g with
                     | some f => f
                     | none => fun _ => 0) v)⟩ : CentralityRow)) = id := by
        funext v
        rfl
      rw [hid, List.map_id] at hmap
      exact hmap
  · intro hnodup hb hc he hs r hr
    by_cases hn : g.nodes.isEmpty
    · rw [calculate_centrality_metrics, if_pos hn] at hr
      simp at hr
    · rw [calculate_centrality_metrics, if_neg hn] at hr
      rw [List.mem_insertionSort] at hr
      rcases List.mem_map.mp hr with ⟨v, hv, hrow⟩
      have hdeg : r.degree_centrality = round4 (degree_centrality g v) := by
        rw [← hrow]
      have hbet : r.betweenness_centrality = round4 (bet g v) := by
        rw [← hrow]
      have hclo : r.closeness_centrality = round4 (clo g v) := by
        rw [← hrow]
      have heig : r.eigenvector_centrality =
          round4 ((match eig g with
                   | some f => f
                   | none => fun _ => 0) v) := by
        rw [← hrow]
      refine ⟨?_, ?_, ?_, ?_⟩
      · rw [hdeg]
        have hu := degree_centrality_unit hnodup hs hv
        exact round4_mem_unit hu.1 hu.2
      · rw [hbet]
        exact round4_mem_unit (hb v).1 (hb v).2
      · rw [hclo]
        exact round4_mem_unit (hc v).1 (hc v).2
      · rw [heig]
        cases hcase : eig g with
        | none =>
          exact round4_mem_unit (le_refl 0) (by norm_num)
        | some f =>
          exact round4_mem_unit (he f hcase v).1 (he f hcase v).2

/-- A loop-free graph built by `create_network`. -/
def pathGraph : Graph := create_network [(("aa", "bb"), 2)] 2

/-- Witness for the amended C4 at a concrete input: the two-node path graph
with constant normalized library scores. -/
theorem centrality_table_amended_witness :
    List.Perm ((calculate_centrality_metrics pathGraph (fun _ _ => 0)
        (fun _ _ => 1) (fun _ => none)).map CentralityRow.keyword)
      pathGraph.nodes ∧
    ∀ r ∈ calculate_centrality_metrics pathGraph (fun _ _ => 0) (fun _ _ => 1)
        (fun _ => none),
      (0 ≤ r.degree_centrality ∧ r.degree_centrality ≤ 1) ∧
      (0 ≤ r.betweenness_centrality ∧ r.betweenness_centrality ≤ 1) ∧
      (0 ≤ r.closeness_centrality ∧ r.closeness_centrality ≤ 1) ∧
      (0 ≤ r.eigenvector_centrality ∧ r.eigenvector_centrality ≤ 1) := by
  refine ⟨(centrality_table_amended pathGraph _ _ _).1, ?_⟩
  refine (centrality_table_amended pathGraph _ _ _).2 (by decide)
    (fun v => ⟨le_refl 0, by norm_num⟩) (fun v => ⟨by norm_num, le_refl 1⟩)
    (fun f hf => Option.noConfusion hf) ?_
  intro w hw
  have hedges : pathGraph.edges = [("aa", "bb")] := by decide
  rw [hedges] at hw
  have hpair := List.mem_singleton.mp hw
  have h1 : w = "aa" := congrArg Prod.fst hpair
  have h2 : w = "bb" := congrArg Prod.snd hpair
  rw [h1] at h2
  exact absurd h2 (by decide)

/-! ### Topic modelling (`TopicModeler`, src/utils/topic_modeling.py)

The sklearn `CountVectorizer` and `LatentDirichletAllocation` are external
libraries: types `V`, `M`, `L` stand for vectorizer objects, matrices and
LDA objects, and the outcome of each library call enters as a parameter
(`none` models a raised exception, caught by the `except` branch which
prints and returns `None`). -/

/-- The mutable attributes of a `TopicModeler` instance (lines 12–15). -/
structure TMState (V M L : Type) where
  lda_model : Option L
  vectorizer : Option V
  doc_topic_matrix : Option M

/-- `TopicModeler.fit_lda_model` (lines 17–48) as a state transformer,
returning the new state and the Python return value.  `vnew` is the freshly
constructed `CountVectorizer` assigned to `self.vectorizer` before the
`try` block; `fitRes` is the outcome of its `fit_transform` on `texts`;
`msum` is the matrix sum of the zero-count check; `ldaNew` is the freshly
constructed LDA object assigned to `self.lda_model` before its fit;
`ldaFit` is the outcome of `lda.fit_transform`.  The guard is Python's
`if not texts or all(not text.strip() for text in texts)`. -/
def fit_lda_model {V M L : Type} (tm : TMState V M L) (texts : List String)
    (vnew : V) (fitRes : Option M) (msum : M → Nat) (ldaNew : L)
    (ldaFit : M → Option M) : TMState V M L × Option L :=
  if texts.isEmpty || texts.all (fun t => (stripWS t.data).isEmpty) then (tm, none)
  else
    match fitRes with
    | none => (⟨tm.lda_model, some vnew, tm.doc_topic_matrix⟩, none)
    | some mtx =>
      if msum mtx = 0 then (⟨tm.lda_model, some vnew, tm.doc_topic_matrix⟩, none)
      else
        match ldaFit mtx with
        | none => (⟨some ldaNew, some vnew, tm.doc_topic_matrix⟩, none)
        | some dtm => (⟨some ldaNew, some vnew, some dtm⟩, some ldaNew)

/-- Python `l[-n:]` on a list (for `argsort()[-n_words:]`); `l[-0:]` is the
whole list. -/
def lastSlice {α : Type} (l : List α) (n : Nat) : List α :=
  if n = 0 then l else l.drop (l.length - n)

instance weightAscDecidable (weights : List ℚ) :
    DecidableRel fun i j : Nat => weights.getD i 0 ≤ weights.getD j 0 :=
  fun i j => inferInstanceAs (Decidable (weights.getD i 0 ≤ weights.getD j 0))

/-- numpy `argsort` of a topic's weight vector: index list sorted by weight
ascending. -/
def argsortAsc (weights : List ℚ) : List Nat :=
  List.insertionSort (fun i j => weights.getD i 0 ≤ weights.getD j 0)
    (List.range weights.length)

/-- Python `topic.argsort()[-n_words:][::-1]`: indices of the `n` heaviest
weights, descending. -/
def topWordIdxs (weights : List ℚ) (n : Nat) : List Nat :=
  (lastSlice (argsortAsc weights) n).reverse

/-- One row of the topics DataFrame; the label `'토픽 {i+1}'` is modeled by
the topic number `i + 1`. -/
structure TopicRow where
  topic : Nat
  keyword : String
  weight : ℚ

/-- The body of the `some`/`some` branch of `get_topics_dataframe` (lines
55–70): for every topic of the stale-or-fresh LDA object, the top `n_words`
terms of the vectorizer's vocabulary with their rounded weights.
`components` reads `lda_model.components_` and `featureNames` reads
`vectorizer.get_feature_names_out()`, both library attributes. -/
def topicsRows {V L : Type} (components : L → List (List ℚ))
    (featureNames : V → List String) (l : L) (v : V) (n_words : Nat) :
    List TopicRow :=
  (components l).enum.flatMap fun tt =>
    (topWordIdxs tt.2 n_words).map fun i =>
      ⟨tt.1 + 1, (featureNames v).getD i "", round4 (tt.2.getD i 0)⟩

/-- `TopicModeler.get_topics_dataframe` (lines 50–70): empty DataFrame when
`lda_model` or `vectorizer` is `None` (falsy), otherwise the rows built
from both. -/
def get_topics_dataframe {V M L : Type} (components : L → List (List ℚ))
    (featureNames : V → List String) (tm : TMState V M L) (n_words : Nat) :
    List TopicRow :=
  match tm.lda_model, tm.vectorizer with
  | some l, some v => topicsRows components featureNames l v n_words
  | some _, none => []
  | none, _ => []

/-- The body of the `some`/`some` branch of `get_topic_keywords_summary`
(lines 108–114): per topic, the top-5 terms joined with a comma. -/
def summaryRows {V L : Type} (components : L → List (List ℚ))
    (featureNames : V → List String) (l : L) (v : V) : List (Nat × String) :=
  (components l).enum.map fun tt =>
    (tt.1 + 1,
     String.intercalate ", " ((topWordIdxs tt.2 5).map fun i =>
       (featureNames v).getD i ""))

/-- `TopicModeler.get_topic_keywords_summary` (lines 103–116). -/
def get_topic_keywords_summary {V M L : Type} (components : L → List (List ℚ))
    (featureNames : V → List String) (tm : TMState V M L) :
    List (Nat × String) :=
  match tm.lda_model, tm.vectorizer with
  | some l, some v => summaryRows components featureNames l v
  | some _, none => []
  | none, _ => []

/-- The topic-modelling step of `perform_realtime_analysis` (src/app.py
lines 126–130): `topic_model` stays `None` unless at least 5 filtered
documents exist; only then is `fit_lda_model` invoked, here abstracted as
the function `fit`. -/
def topic_modeling_step {L : Type} (fit : List String → Option L)
    (filtered_texts : List String) : Option L :=
  if 5 ≤ filtered_texts.length then fit filtered_texts else none

/-- C2: with fewer than 5 filtered documents the topic-modelling step
returns `None` deterministically, for every possible behaviour `fit` of the
model-fitting call — the fit is never attempted. -/
theorem topic_step_refuses_few_docs {L : Type} (fit : List String → Option L)
    (docs : List String) (h : docs.length < 5) :
    topic_modeling_step fit docs = none := by
  rw [topic_modeling_step, if_neg (by omega)]

/-- Witness for C2 at a concrete input: four documents give `None` even
though the fit function would return a model. -/
theorem topic_step_refuses_few_docs_witness :
    topic_modeling_step (fun _ => some 7) ["a", "b", "c", "d"] = none :=
  topic_step_refuses_few_docs (fun _ => some 7) ["a", "b", "c", "d"] (by decide)

/-- A `TopicModeler` state left by an earlier successful fit: model 0,
vectorizer 10, document-topic matrix 20 (over `V = M = L = Nat`). -/
def tmStale : TMState Nat Nat Nat := ⟨some 0, some 10, some 20⟩

/-- C9 as stated is false for failures inside the LDA fit itself: the code
assigns the freshly constructed LDA object to `self.lda_model` before
calling its `fit_transform`, so when that call raises, the call returns
`None` but `self.lda_model` holds the new unfitted object (here 1), not the
earlier model (0). -/
theorem fit_lda_model_state_counterexample :
    (fit_lda_model tmStale ["x"] 11 (some 5) (fun m => m) 1 (fun _ => none)).2
      = none ∧
    ¬ (fit_lda_model tmStale ["x"] 11 (some 5) (fun m => m) 1
        (fun _ => none)).1.lda_model = some 0 := by
  constructor
  · rfl
  · decide

/-- C9 amended: when a `fit_lda_model` call that follows an earlier
successful fit fails during vectorization (`fit_transform` raises) or at
the zero-count check, it returns `None` while `self.lda_model` and
`self.doc_topic_matrix` keep the earlier values and `self.vectorizer` holds
the newly created vectorizer; the getters then take their non-empty branch,
reading the stale model's components against the new vectorizer's
vocabulary, instead of returning the empty result.  (When the failure is in
the LDA fit itself, `self.lda_model` instead holds the newly constructed
unfitted LDA object — see the counterexample.) -/
theorem fit_lda_model_stale_state_amended {V M L : Type}
    (l0 : L) (v0 : V) (m0 : M) (texts : List String)
    (vnew : V) (fitRes : Option M) (msum : M → Nat) (ldaNew : L)
    (ldaFit : M → Option M)
    (hguard : (texts.isEmpty || texts.all fun t => (stripWS t.data).isEmpty)
      = false)
    (hfail : fitRes = none ∨ ∃ mtx, fitRes = some mtx ∧ msum mtx = 0)
    (components : L → List (List ℚ)) (featureNames : V → List String)
    (n_words : Nat) :
    (fit_lda_model (⟨some l0, some v0, some m0⟩ : TMState V M L) texts vnew
        fitRes msum ldaNew ldaFit).2 = none ∧
    (fit_lda_model (⟨some l0, some v0, some m0⟩ : TMState V M L) texts vnew
        fitRes msum ldaNew ldaFit).1 = ⟨some l0, some vnew, some m0⟩ ∧
    get_topics_dataframe components featureNames
        (fit_lda_model (⟨some l0, some v0, some m0⟩ : TMState V M L) texts vnew
          fitRes msum ldaNew ldaFit).1 n_words
      = topicsRows components featureNames l0 vnew n_words ∧
    get_topic_keywords_summary components featureNames
        (fit_lda_model (⟨some l0, some v0, some m0⟩ : TMState V M L) texts vnew
          fitRes msum ldaNew ldaFit).1
      = summaryRows components featureNames l0 vnew := by
  have hstate : fit_lda_model (⟨some l0, some v0, some m0⟩ : TMState V M L)
      texts vnew fitRes msum ldaNew ldaFit = (⟨some l0, some vnew, some m0⟩, none) := by
    rw [fit_lda_model.eq_def, if_neg (by simp [hguard])]
    rcases hfail with hf | ⟨mtx, hf, hz⟩
    · rw [hf]
    · rw [hf]
      simp [hz]
  rw [hstate]
  exact ⟨rfl, rfl, rfl, rfl⟩

/-- Witness for the amended C9 at a concrete input: a zero-count
vectorization failure after the earlier fit held in `tmStale`. -/
theorem fit_lda_model_stale_state_amended_witness :
    (fit_lda_model tmStale ["x"] 11 (some 0) (fun m => m) 1 (fun _ => none)).2
      = none ∧
    (fit_lda_model tmStale ["x"] 11 (some 0) (fun m => m) 1
        (fun _ => none)).1 = ⟨some 0, some 11, some 20⟩ ∧
    get_topics_dataframe (fun _ => [[1]]) (fun _ => ["w"])
        (fit_lda_model tmStale ["x"] 11 (some 0) (fun m => m) 1
          (fun _ => none)).1 1
      = topicsRows (fun _ => [[1]]) (fun _ => ["w"]) 0 11 1 ∧
    get_topic_keywords_summary (fun _ => [[1]]) (fun _ => ["w"])
        (fit_lda_model tmStale ["x"] 11 (some 0) (fun m => m) 1
          (fun _ => none)).1
      = summaryRows (fun _ => [[1]]) (fun _ => ["w"]) 0 11 :=
  fit_lda_model_stale_state_amended 0 10 20 ["x"] 11 (some 0) (fun m => m) 1
    (fun _ => none) (by decide) (Or.inr ⟨0, rfl, rfl⟩) (fun _ => [[1]])
    (fun _ => ["w"]) 1
